import Mathlib

/-!
Verification of the transformer encoder in `pytorch_pretrained_vit/transformer.py`.

The file shallowly embeds the control flow and the tensor-shape algebra of the
source:

* Transformer blocks (`Block.forward`) are abstracted as functions from an
  input and an optional attention mask to an output (`BlockFn`); the claims
  about `Transformer.forward`, `AnomalyTransformer.forward` and
  `OlderAnomalyTransformer.forward` are parametric in the block computation.
* Python exceptions (an `IndexError`, `torch.stack` applied to an empty list,
  the `UnboundLocalError` raised by `OlderAnomalyTransformer.forward` when its
  loop never assigns `origin_block_outputs`) are modelled by `Option.none`.
* Tensors are modelled by their shape and a flat row-major data list, with
  `torch.Tensor.view` checked the way torch checks it (element counts must
  match, `-1` is inferred by division when the known product is positive and
  divides the element count).
* The numerically sensitive masking step of `MultiHeadedSelfAttention.forward`
  is embedded over the exact reals (dropout in evaluation mode is the
  identity).
-/

set_option maxHeartbeats 1000000

namespace ViT

/-- A transformer block abstracted as a function of its input and an optional
attention mask.  `Block.forward(x, mask)` in the source is such a function;
the control-flow claims about the transformer variants hold uniformly in the
concrete block computation. -/
abbrev BlockFn (α μ : Type) : Type := α → Option μ → α

/-- Sequential application of a list of blocks under a fixed mask: the running
state threaded by `for i, block in enumerate(self.blocks): x = block(x, mask)`. -/
def runBlocks (bs : List (BlockFn α μ)) (x : α) (mask : Option μ) : α :=
  bs.foldl (fun a b => b a mask) x

/-- The loop of `Transformer.forward` (transformer.py lines 102-105): apply the
blocks in order, starting at index `i`, and break immediately after the block
whose index equals `outputLayerInd`. -/
def transformerGo (mask : Option μ) (outputLayerInd : Int) :
    Nat → List (BlockFn α μ) → α → α
  | _, [], x => x
  | i, b :: bs, x =>
    let x1 := b x mask
    if Int.ofNat i = outputLayerInd then x1
    else transformerGo mask outputLayerInd (i + 1) bs x1

/-- `Transformer.forward(x, mask, output_layer_ind)` (transformer.py lines
100-107).  The module is identified with its list of blocks. -/
def Transformer.forward (blocks : List (BlockFn α μ)) (x : α) (mask : Option μ)
    (outputLayerInd : Int) : α :=
  transformerGo mask outputLayerInd 0 blocks x

/-- The three accepted forms of the `clone_block_ind` argument of
`AnomalyTransformer.forward`: `None`, a bare Python `int`, or a list of ints. -/
inductive CloneArg : Type where
  | noneArg : CloneArg
  | intArg : Int → CloneArg
  | listArg : List Int → CloneArg

/-- Normalisation of `clone_block_ind` performed at the top of
`AnomalyTransformer.forward` (lines 134-141): `None` becomes
`list(range(len(self.blocks)))`; a bare int equal to `-1` becomes
`len(self.blocks) - 1` and is then wrapped in a singleton list; a list is
passed through unchanged (in particular a `-1` inside a list is NOT
normalised). -/
def normalizeCloneInd (numLayers : Nat) : CloneArg → List Int
  | CloneArg.noneArg => (List.range numLayers).map Int.ofNat
  | CloneArg.intArg n =>
      if n = -1 then [Int.ofNat numLayers - 1] else [n]
  | CloneArg.listArg l => l

/-- The loop of `AnomalyTransformer.forward` (lines 143-156), started at layer
index `i`.  At each layer the pre-block input `prev` is saved, the original
block advances the running state, and if the index is selected the cloned block
`cloned_blocks[i]` is applied to `prev` and both outputs are appended.
`Option.none` models the `IndexError` raised if `self.cloned_blocks[i]` does
not exist (impossible for instances built by `__init__`, which creates two
stacks of equal length). -/
def anomalyLoop (mask : Option μ) (inds : List Int) (clonedBlocks : List (BlockFn α μ)) :
    Nat → List (BlockFn α μ) → α → Option (List α × List α)
  | _, [], _ => Option.some ([], [])
  | i, b :: bs, x =>
    let prev := x
    let x1 := b prev mask
    if Int.ofNat i ∈ inds then
      match clonedBlocks[i]? with
      | Option.none => Option.none
      | Option.some cb =>
        match anomalyLoop mask inds clonedBlocks (i + 1) bs x1 with
        | Option.none => Option.none
        | Option.some (os, cs) => Option.some (x1 :: os, cb prev mask :: cs)
    else anomalyLoop mask inds clonedBlocks (i + 1) bs x1

/-- `AnomalyTransformer` state: the original block stack `self.blocks` and the
parallel cloned stack `self.cloned_blocks` (lines 115-122; `__init__` makes
both of length `num_layers`). -/
structure AnomalyTransformer (α μ : Type) : Type where
  blocks : List (BlockFn α μ)
  cloned_blocks : List (BlockFn α μ)

/-- `AnomalyTransformer.forward(x, mask, clone_block_ind)` (lines 133-157).
The final `torch.stack` of each output list raises on an empty list; this is
modelled by returning `Option.none` when no layer was selected. -/
def AnomalyTransformer.forward (t : AnomalyTransformer α μ) (x : α)
    (mask : Option μ) (cloneBlockInd : CloneArg) : Option (List α × List α) :=
  match anomalyLoop mask (normalizeCloneInd t.blocks.length cloneBlockInd)
      t.cloned_blocks 0 t.blocks x with
  | Option.none => Option.none
  | Option.some (os, cs) =>
      if os.isEmpty then Option.none else Option.some (os, cs)

/-- `OlderAnomalyTransformer` state: one block stack, one configured clone
index, and a single cloned block (lines 160-173). -/
structure OlderAnomalyTransformer (α μ : Type) : Type where
  blocks : List (BlockFn α μ)
  clone_block_ind : Int
  cloned_block : BlockFn α μ

/-- `OlderAnomalyTransformer.__init__` (lines 163-173): stores the blocks and
the cloned block, and normalises a clone index of `-1` to `num_layers - 1`. -/
def OlderAnomalyTransformer.init (numLayers : Nat) (blocks : List (BlockFn α μ))
    (cloneBlockInd : Int) (clonedBlock : BlockFn α μ) :
    OlderAnomalyTransformer α μ :=
  { blocks := blocks
    clone_block_ind := if cloneBlockInd = -1 then Int.ofNat numLayers - 1 else cloneBlockInd
    cloned_block := clonedBlock }

/-- The loop of `OlderAnomalyTransformer.forward` (lines 177-185), started at
layer index `i`: run the blocks in order, and at the configured clone index
return the pair (post-block output, cloned block applied to the pre-block
input).  If the loop finishes without ever matching the clone index, the
`return` statement raises `UnboundLocalError` because `origin_block_outputs`
was never assigned; this is modelled by `Option.none`. -/
def olderLoop (mask : Option μ) (ind : Int) (clonedBlock : BlockFn α μ) :
    Nat → List (BlockFn α μ) → α → Option (α × α)
  | _, [], _ => Option.none
  | i, b :: bs, x =>
    let prev := x
    let x1 := b prev mask
    if Int.ofNat i = ind then Option.some (x1, clonedBlock prev mask)
    else olderLoop mask ind clonedBlock (i + 1) bs x1

/-- `OlderAnomalyTransformer.forward(x, mask, output_layer_ind)` (lines
175-186).  The `output_layer_ind` parameter appears in the signature but the
early-exit check that referenced it is commented out (lines 180-181), so the
body never reads it. -/
def OlderAnomalyTransformer.forward (t : OlderAnomalyTransformer α μ) (x : α)
    (mask : Option μ) (outputLayerInd : Int) : Option (α × α) :=
  olderLoop mask t.clone_block_ind t.cloned_block 0 t.blocks x

/-- The layer indices of `range(len(blocks))` that the normalised clone-index
list actually selects in the loop of `AnomalyTransformer.forward`. -/
def selectedLayers (numLayers : Nat) (arg : CloneArg) : List Nat :=
  (List.range numLayers).filter
    (fun i => Int.ofNat i ∈ normalizeCloneInd numLayers arg)

/-- Default block used only to state `List.getD` lookups that are always in
range in the theorems below. -/
def dummyBlock : BlockFn α μ := fun a _ => a

/-! Concrete instances used by the witnesses and counterexamples. -/

/-- A concrete two-layer `AnomalyTransformer` over natural numbers. -/
def anomEx : AnomalyTransformer Nat Unit :=
  { blocks := [fun a _ => a + 1, fun a _ => 2 * a]
    cloned_blocks := [fun a _ => a + 10, fun a _ => a + 100] }

/-- A concrete two-layer `OlderAnomalyTransformer` whose configured clone
index 5 exceeds `num_layers - 1 = 1`. -/
def olderEx : OlderAnomalyTransformer Nat Unit :=
  OlderAnomalyTransformer.init 2 [fun a _ => a + 1, fun a _ => 2 * a] 5
    (fun a _ => a + 100)

/-- A concrete three-block stack over natural numbers. -/
def blocksEx : List (BlockFn Nat Unit) :=
  [fun a _ => a + 1, fun a _ => 2 * a, fun a _ => a + 3]

/-! Tensors as shape plus flat row-major data, for the shape-algebra claims
about `split_last` and `merge_last` (transformer.py lines 12-25). -/

/-- A torch tensor modelled by its shape and its flat row-major data. -/
structure Tensor (β : Type) : Type where
  shape : List Nat
  data : List β

/-- Well-formedness: the flat data holds exactly `numel = shape.prod`
elements. -/
def Tensor.wf (t : Tensor β) : Prop := t.data.length = t.shape.prod

/-- Python `lst[lst.index(tgt)] = v`: replace the first occurrence of `tgt`
by `v` (used by `split_last` only after checking `tgt ∈ lst`). -/
def replaceFirst : List Int → Int → Int → List Int
  | [], _, _ => []
  | a :: rest, tgt, v =>
      if a = tgt then v :: rest else a :: replaceFirst rest tgt v

/-- `torch.Tensor.view(*newShape)`: at most one `-1` is accepted; with a `-1`
present the missing dimension is inferred, which torch accepts only when the
product of the known dimensions is positive and divides `numel`; without a
`-1` all dimensions must be non-negative and their product must equal
`numel`.  The data is reinterpreted, never moved.  `Option.none` models the
`RuntimeError` torch raises otherwise. -/
def tensorView (t : Tensor β) (newShape : List Int) : Option (Tensor β) :=
  if 1 < newShape.count (-1) then Option.none
  else if (-1) ∈ newShape then
    if ((newShape.filter (fun d => d ≠ -1)).all (fun d => 0 ≤ d)) ∧
        0 < ((newShape.filter (fun d => d ≠ -1)).map Int.toNat).prod ∧
        ((newShape.filter (fun d => d ≠ -1)).map Int.toNat).prod ∣ t.shape.prod
    then
      Option.some
        ⟨(replaceFirst newShape (-1)
            (Int.ofNat (t.shape.prod /
              ((newShape.filter (fun d => d ≠ -1)).map Int.toNat).prod))).map
          Int.toNat,
         t.data⟩
    else Option.none
  else
    if (newShape.all (fun d => 0 ≤ d)) ∧
        (newShape.map Int.toNat).prod = t.shape.prod
    then Option.some ⟨newShape.map Int.toNat, t.data⟩
    else Option.none

/-- `split_last(x, shape)` (transformer.py lines 12-18): assert at most one
`-1`; if a `-1` is present replace it by `int(x.size(-1) / -np.prod(shape))`
(`Int.tdiv` is Python's truncating `int(...)` division); then
`x.view(*x.size()[:-1], *shape)`.  `Option.none` models the assertion and
view errors. -/
def split_last (t : Tensor β) (shape : List Int) : Option (Tensor β) :=
  if 1 < shape.count (-1) then Option.none
  else
    tensorView t
      ((t.shape.dropLast.map Int.ofNat) ++
        (if (-1) ∈ shape then
          replaceFirst shape (-1)
            (Int.tdiv (Int.ofNat (t.shape.getLastD 0)) (- shape.prod))
         else shape))

/-- `merge_last(x, n_dims)` (transformer.py lines 21-25): assert
`1 < n_dims < rank`, then `x.view(*s[:-n_dims], -1)`. -/
def merge_last (t : Tensor β) (nDims : Nat) : Option (Tensor β) :=
  if 1 < nDims ∧ nDims < t.shape.length then
    tensorView t (((t.shape.take (t.shape.length - nDims)).map Int.ofNat) ++ [-1])
  else Option.none

/-- Row-major flat position of a multi-index in a shape. -/
def flatIndex : List Nat → List Nat → Nat
  | [], _ => 0
  | _ :: _, [] => 0
  | _ :: ns, i :: rest => i * ns.prod + flatIndex ns rest

/-- Multi-index of a row-major flat position in a shape. -/
def unflatten : List Nat → Nat → List Nat
  | [], _ => []
  | _ :: ns, k => (k / ns.prod) :: unflatten ns (k % ns.prod)

/-- Swap positions 1 and 2 of a list (the dimension permutation of
`x.transpose(1, 2)` as used in `MultiHeadedSelfAttention.forward`). -/
def swapIdx12 : List Nat → List Nat
  | a :: b :: c :: rest => a :: c :: b :: rest
  | l => l

/-- `x.transpose(1, 2)` on a flat-data tensor of rank at least 3: the shape
has dimensions 1 and 2 swapped, and the entry at multi-index `j` of the
result is the entry of `t` at multi-index `swapIdx12 j`.  `dflt` is only an
artifact of total `List.getD` lookup; it is never hit on well-formed input. -/
def Tensor.transpose12 (t : Tensor β) (dflt : β) : Tensor β :=
  ⟨swapIdx12 t.shape,
   (List.range (swapIdx12 t.shape).prod).map
     (fun k =>
       t.data.getD (flatIndex t.shape (swapIdx12 (unflatten (swapIdx12 t.shape) k))) dflt)⟩

/-! The masking step of `MultiHeadedSelfAttention.forward` (transformer.py
lines 50-53), over the exact reals.  Dropout in evaluation mode is the
identity, so the post-softmax weights are exactly the softmax of the masked
scores. -/

/-- `scores -= 10000.0 * (1.0 - mask)` (lines 51-52) applied to one row of
raw scores, the mask row being the one broadcast to this (batch, head, query)
position. -/
noncomputable def maskAdjustRow (row mrow : List ℝ) : List ℝ :=
  List.zipWith (fun s m => s - 10000 * (1 - m)) row mrow

/-- `F.softmax(scores, dim=-1)` (line 53) on one row. -/
noncomputable def softmaxRow (l : List ℝ) : List ℝ :=
  l.map (fun s => Real.exp s / (l.map Real.exp).sum)

/-- Lines 50-53 for one (batch, head, query) row in evaluation mode. -/
noncomputable def maskedAttnRow (row mrow : List ℝ) : List ℝ :=
  softmaxRow (maskAdjustRow row mrow)

/-- The full post-softmax attention weights of shape (B, H, S, S): the mask
`mask[:, None, None, :]` is broadcast so that every head and every query row
of batch `b` is masked with `mask[b]`. -/
noncomputable def maskedAttnWeights (scores : List (List (List (List ℝ))))
    (mask : List (List ℝ)) : List (List (List (List ℝ))) :=
  List.zipWith
    (fun perBatch mrow =>
      perBatch.map (fun perHead => perHead.map (fun row => maskedAttnRow row mrow)))
    scores mask

theorem runBlocks_cons (b : BlockFn α μ) (bs : List (BlockFn α μ)) (x : α)
    (mask : Option μ) : runBlocks (b :: bs) x mask = runBlocks bs (b x mask) mask := rfl

theorem runBlocks_nil (x : α) (mask : Option μ) : runBlocks ([] : List (BlockFn α μ)) x mask = x := rfl

/-- Closed form of the loop of `AnomalyTransformer.forward`: started at layer
index `i` on the remaining blocks `bs`, it returns, for every selected offset
`k`, the original running state after block `i + k` paired with
`cloned_blocks[i + k]` applied to the original running state before block
`i + k`. -/
theorem anomalyLoop_eq (mask : Option μ) (inds : List Int) (cb : List (BlockFn α μ))
    (bs : List (BlockFn α μ)) (i : Nat) (x : α) (h : i + bs.length ≤ cb.length) :
    anomalyLoop mask inds cb i bs x =
      Option.some
        (((List.range bs.length).filter (fun k => Int.ofNat (i + k) ∈ inds)).map
            (fun k => runBlocks (bs.take (k + 1)) x mask),
         ((List.range bs.length).filter (fun k => Int.ofNat (i + k) ∈ inds)).map
            (fun k => (cb.getD (i + k) dummyBlock) (runBlocks (bs.take k) x mask) mask)) := by
  induction bs generalizing i x with
  | nil => simp [anomalyLoop]
  | cons b bs ih =>
    have hi : i < cb.length := by simp only [List.length_cons] at h; omega
    have hrec := ih (i + 1) (b x mask) (by simp only [List.length_cons] at h; omega)
    have hshift :
        ((List.range (b :: bs).length).filter
            (fun k => Int.ofNat (i + k) ∈ inds)).map
            (fun k => runBlocks ((b :: bs).take (k + 1)) x mask)
          = (if Int.ofNat i ∈ inds then [b x mask] else []) ++
            ((List.range bs.length).filter
                (fun k => Int.ofNat (i + 1 + k) ∈ inds)).map
              (fun k => runBlocks (bs.take (k + 1)) (b x mask) mask) := by
      rw [List.length_cons, List.range_succ_eq_map]
      have hp : ((fun k => decide (Int.ofNat (i + k) ∈ inds)) ∘ Nat.succ)
          = (fun k => decide (Int.ofNat (i + 1 + k) ∈ inds)) := by
        funext k
        simp only [Function.comp_apply]
        rw [show i + Nat.succ k = i + 1 + k by omega]
      have hf : ((fun k => runBlocks ((b :: bs).take (k + 1)) x mask) ∘ Nat.succ)
          = (fun k => runBlocks (bs.take (k + 1)) (b x mask) mask) := by
        funext k
        rfl
      by_cases hmem : Int.ofNat i ∈ inds
      · rw [List.filter_cons_of_pos (by simpa using hmem), List.filter_map, hp,
          List.map_cons, List.map_map, hf, if_pos hmem, List.singleton_append]
        rfl
      · rw [List.filter_cons_of_neg (by simpa using hmem), List.filter_map, hp,
          List.map_map, hf, if_neg hmem, List.nil_append]
    have hshift2 :
        ((List.range (b :: bs).length).filter
            (fun k => Int.ofNat (i + k) ∈ inds)).map
            (fun k => (cb.getD (i + k) dummyBlock)
                (runBlocks ((b :: bs).take k) x mask) mask)
          = (if Int.ofNat i ∈ inds then [(cb.getD i dummyBlock) x mask] else []) ++
            ((List.range bs.length).filter
                (fun k => Int.ofNat (i + 1 + k) ∈ inds)).map
              (fun k => (cb.getD (i + 1 + k) dummyBlock)
                  (runBlocks (bs.take k) (b x mask) mask) mask) := by
      rw [List.length_cons, List.range_succ_eq_map]
      have hp : ((fun k => decide (Int.ofNat (i + k) ∈ inds)) ∘ Nat.succ)
          = (fun k => decide (Int.ofNat (i + 1 + k) ∈ inds)) := by
        funext k
        simp only [Function.comp_apply]
        rw [show i + Nat.succ k = i + 1 + k by omega]
      have hg : ((fun k => (cb.getD (i + k) dummyBlock)
              (runBlocks ((b :: bs).take k) x mask) mask) ∘ Nat.succ)
          = (fun k => (cb.getD (i + 1 + k) dummyBlock)
              (runBlocks (bs.take k) (b x mask) mask) mask) := by
        funext k
        simp only [Function.comp_apply, List.take_succ_cons, runBlocks_cons]
        rw [show i + Nat.succ k = i + 1 + k by omega]
      by_cases hmem : Int.ofNat i ∈ inds
      · rw [List.filter_cons_of_pos (by simpa using hmem), List.filter_map, hp,
          List.map_cons, List.map_map, hg, if_pos hmem, List.singleton_append]
        rfl
      · rw [List.filter_cons_of_neg (by simpa using hmem), List.filter_map, hp,
          List.map_map, hg, if_neg hmem, List.nil_append]
    rw [hshift, hshift2]
    by_cases hmem : Int.ofNat i ∈ inds
    · simp only [anomalyLoop, hmem, if_true, List.getElem?_eq_getElem hi, hrec,
        List.getD_eq_getElem cb dummyBlock hi, List.singleton_append]
    · simp only [anomalyLoop, hmem, if_false, hrec, List.nil_append]

/-- Closed form of `AnomalyTransformer.forward` for instances whose two block
stacks have matching lengths (as `__init__` guarantees): the result pairs, for
every selected layer `i`, the original path after block `i` with the cloned
block `i` applied to the original path before block `i`; it is an error
(`torch.stack` of an empty list) exactly when no layer is selected. -/
theorem anomaly_forward_eq (t : AnomalyTransformer α μ)
    (h : t.blocks.length ≤ t.cloned_blocks.length) (x : α) (mask : Option μ)
    (arg : CloneArg) :
    t.forward x mask arg =
      (if selectedLayers t.blocks.length arg = [] then Option.none
       else Option.some
        ((selectedLayers t.blocks.length arg).map
            (fun i => runBlocks (t.blocks.take (i + 1)) x mask),
         (selectedLayers t.blocks.length arg).map
            (fun i => (t.cloned_blocks.getD i dummyBlock)
                (runBlocks (t.blocks.take i) x mask) mask))) := by
  unfold AnomalyTransformer.forward
  rw [anomalyLoop_eq mask _ _ _ 0 x (by omega)]
  simp only [Nat.zero_add, selectedLayers, List.isEmpty_iff, List.map_eq_nil_iff]

/-- The loop of `Transformer.forward` runs to the end when no remaining layer
index equals `outputLayerInd`. -/
theorem transformerGo_no_match (mask : Option μ) (o : Int)
    (bs : List (BlockFn α μ)) (i : Nat) (x : α)
    (h : ∀ k : Nat, i ≤ k → k < i + bs.length → Int.ofNat k ≠ o) :
    transformerGo mask o i bs x = runBlocks bs x mask := by
  induction bs generalizing i x with
  | nil => rfl
  | cons b bs ih =>
    have hne : Int.ofNat i ≠ o :=
      h i (Nat.le_refl i) (by simp only [List.length_cons]; omega)
    simp only [transformerGo, hne, if_false, runBlocks_cons]
    exact ih (i + 1) (b x mask)
      (fun k hk1 hk2 =>
        h k (by omega) (by simp only [List.length_cons] at hk2 ⊢; omega))

/-- The loop of `Transformer.forward`, started at index `i`, breaks right
after the block with absolute index `k` when `i ≤ k < i + bs.length`. -/
theorem transformerGo_match (mask : Option μ) (k : Nat)
    (bs : List (BlockFn α μ)) (i : Nat) (x : α)
    (hik : i ≤ k) (hlt : k < i + bs.length) :
    transformerGo mask (Int.ofNat k) i bs x =
      runBlocks (bs.take (k - i + 1)) x mask := by
  induction bs generalizing i x with
  | nil => simp only [List.length_nil] at hlt; omega
  | cons b bs ih =>
    by_cases hcase : i = k
    · subst hcase
      simp [transformerGo, Nat.sub_self, runBlocks_cons, runBlocks_nil]
    · have hlt' : i < k := by omega
      have hne : Int.ofNat i ≠ Int.ofNat k := by
        intro hc
        exact hcase (Int.ofNat.inj hc)
      have harith : k - i + 1 = (k - (i + 1) + 1) + 1 := by omega
      rw [harith]
      simp only [transformerGo, hne, if_false, List.take_succ_cons, runBlocks_cons]
      exact ih (i + 1) (b x mask) (by omega)
        (by simp only [List.length_cons] at hlt ⊢; omega)

/-- The loop of `OlderAnomalyTransformer.forward` falls off the end (leaving
`origin_block_outputs` unbound) when no remaining layer index equals the
configured clone index. -/
theorem olderLoop_no_match (mask : Option μ) (ind : Int) (cbk : BlockFn α μ)
    (bs : List (BlockFn α μ)) (i : Nat) (x : α)
    (h : ∀ k : Nat, i ≤ k → k < i + bs.length → Int.ofNat k ≠ ind) :
    olderLoop mask ind cbk i bs x = Option.none := by
  induction bs generalizing i x with
  | nil => rfl
  | cons b bs ih =>
    have hne : Int.ofNat i ≠ ind :=
      h i (Nat.le_refl i) (by simp only [List.length_cons]; omega)
    simp only [olderLoop, hne, if_false]
    exact ih (i + 1) (b x mask)
      (fun k hk1 hk2 =>
        h k (by omega) (by simp only [List.length_cons] at hk2 ⊢; omega))

/-- `Int.ofNat` agrees with the standard coercion (definitional). -/
theorem intOfNat_eq_cast (n : Nat) : Int.ofNat n = (n : Int) := rfl

/-- A natural number cast to `Int` is never `-1`. -/
theorem intOfNat_ne_negOne (n : Nat) : Int.ofNat n ≠ -1 := by
  rw [intOfNat_eq_cast]
  omega

/-- Claim C1: in every `AnomalyTransformer.forward` call, each selected layer
`i` contributes the pair of the original path's state just after block `i` and
of `cloned_blocks[i]` applied to the very input that block `i` received (the
original path's state just before block `i`, not the cloned path's own running
state); the result stacks the two collections, whose first dimension is the
number of selected layers. -/
theorem claim_C1_anomaly_pairs (t : AnomalyTransformer α μ)
    (h : t.cloned_blocks.length = t.blocks.length) (x : α) (mask : Option μ)
    (arg : CloneArg) (hne : selectedLayers t.blocks.length arg ≠ []) :
    t.forward x mask arg =
      Option.some
        ((selectedLayers t.blocks.length arg).map
            (fun i => runBlocks (t.blocks.take (i + 1)) x mask),
         (selectedLayers t.blocks.length arg).map
            (fun i => (t.cloned_blocks.getD i dummyBlock)
                (runBlocks (t.blocks.take i) x mask) mask)) ∧
    Option.map (fun p => p.1.length) (t.forward x mask arg) =
      Option.some (selectedLayers t.blocks.length arg).length ∧
    Option.map (fun p => p.2.length) (t.forward x mask arg) =
      Option.some (selectedLayers t.blocks.length arg).length := by
  have hle : t.blocks.length ≤ t.cloned_blocks.length := Nat.le_of_eq h.symm
  have hchar := anomaly_forward_eq t hle x mask arg
  rw [if_neg hne] at hchar
  refine ⟨hchar, ?_, ?_⟩
  · rw [hchar]
    simp
  · rw [hchar]
    simp

/-- Witness for C1 at a concrete two-layer instance with all layers selected. -/
theorem claim_C1_witness :
    anomEx.cloned_blocks.length = anomEx.blocks.length ∧
    selectedLayers anomEx.blocks.length CloneArg.noneArg ≠ [] ∧
    anomEx.forward 3 Option.none CloneArg.noneArg =
      Option.some
        ((selectedLayers anomEx.blocks.length CloneArg.noneArg).map
            (fun i => runBlocks (anomEx.blocks.take (i + 1)) 3 Option.none),
         (selectedLayers anomEx.blocks.length CloneArg.noneArg).map
            (fun i => (anomEx.cloned_blocks.getD i dummyBlock)
                (runBlocks (anomEx.blocks.take i) 3 Option.none) Option.none)) :=
  ⟨rfl, by decide,
    (claim_C1_anomaly_pairs anomEx rfl 3 Option.none CloneArg.noneArg (by decide)).1⟩

/-- Claim C2: the original path of `AnomalyTransformer.forward` (and hence the
first returned tensor) is unchanged under any replacement of the cloned
blocks, and the cloned output stored at slot `j` equals the cloned block of
the `j`-th selected layer applied to the original path's state before that
layer — it does not depend on cloned-block computation at any other layer. -/
theorem claim_C2_cloned_noninterference (t1 t2 : AnomalyTransformer α μ)
    (hb : t1.blocks = t2.blocks)
    (h1 : t1.cloned_blocks.length = t1.blocks.length)
    (h2 : t2.cloned_blocks.length = t2.blocks.length)
    (x : α) (mask : Option μ) (arg : CloneArg) (j : Nat)
    (hj : j < (selectedLayers t1.blocks.length arg).length) :
    Option.map Prod.fst (t1.forward x mask arg) =
      Option.map Prod.fst (t2.forward x mask arg) ∧
    Option.map (fun p => p.2.getD j x) (t1.forward x mask arg) =
      Option.some
        ((t1.cloned_blocks.getD ((selectedLayers t1.blocks.length arg).getD j 0)
            dummyBlock)
          (runBlocks
            (t1.blocks.take ((selectedLayers t1.blocks.length arg).getD j 0))
            x mask) mask) := by
  have hle1 : t1.blocks.length ≤ t1.cloned_blocks.length := Nat.le_of_eq h1.symm
  have hle2 : t2.blocks.length ≤ t2.cloned_blocks.length := Nat.le_of_eq h2.symm
  have hne : selectedLayers t1.blocks.length arg ≠ [] := by
    intro hc
    rw [hc] at hj
    simp at hj
  constructor
  · rw [anomaly_forward_eq t1 hle1 x mask arg, anomaly_forward_eq t2 hle2 x mask arg]
    rw [hb]
    by_cases hsel : selectedLayers t2.blocks.length arg = []
    · rw [if_pos hsel, if_pos hsel]
    · rw [if_neg hsel, if_neg hsel]
      simp
  · have hchar := anomaly_forward_eq t1 hle1 x mask arg
    rw [if_neg hne] at hchar
    rw [hchar]
    simp only [Option.map_some']
    congr 1
    rw [List.getD_eq_getElem _ _ (by simpa using hj), List.getElem_map,
      List.getD_eq_getElem _ _ hj]

/-- Witness for C2: perturbing both cloned blocks leaves the original path
unchanged, and slot 1 of the cloned outputs is layer 1's cloned block applied
to the original state before layer 1. -/
theorem claim_C2_witness :
    anomEx.blocks = (AnomalyTransformer.mk anomEx.blocks
        [fun a _ => a + 77, fun a _ => a * 9]).blocks ∧
    (1 : Nat) < (selectedLayers anomEx.blocks.length CloneArg.noneArg).length ∧
    Option.map Prod.fst (anomEx.forward 3 Option.none CloneArg.noneArg) =
      Option.map Prod.fst
        ((AnomalyTransformer.mk anomEx.blocks
            [fun a _ => a + 77, fun a _ => a * 9]).forward 3 Option.none
          CloneArg.noneArg) ∧
    Option.map (fun p => p.2.getD 1 3) (anomEx.forward 3 Option.none CloneArg.noneArg) =
      Option.some
        ((anomEx.cloned_blocks.getD
            ((selectedLayers anomEx.blocks.length CloneArg.noneArg).getD 1 0)
            dummyBlock)
          (runBlocks
            (anomEx.blocks.take
              ((selectedLayers anomEx.blocks.length CloneArg.noneArg).getD 1 0))
            3 Option.none) Option.none) := by
  have hmain := claim_C2_cloned_noninterference anomEx
    (AnomalyTransformer.mk anomEx.blocks [fun a _ => a + 77, fun a _ => a * 9])
    rfl rfl rfl 3 Option.none CloneArg.noneArg 1 (by decide)
  exact ⟨rfl, by decide, hmain.1, hmain.2⟩

/-- Claim C3: `Transformer.forward` with a non-negative `output_layer_ind = k`
inside the stack stops right after block `k` and returns the same intermediate
state that the full run (`output_layer_ind = -1`) computes after block `k`;
the default `-1` runs all blocks. -/
theorem claim_C3_early_exit (blocks : List (BlockFn α μ)) (x : α)
    (mask : Option μ) (k : Nat) (hk : k < blocks.length) :
    Transformer.forward blocks x mask (Int.ofNat k) =
      runBlocks (blocks.take (k + 1)) x mask ∧
    Transformer.forward blocks x mask (-1) = runBlocks blocks x mask := by
  constructor
  · have hm := transformerGo_match mask k blocks 0 x (Nat.zero_le k) (by omega)
    simpa [Transformer.forward, Nat.sub_zero] using hm
  · exact transformerGo_no_match mask (-1) blocks 0 x
      (fun j h1 h2 => intOfNat_ne_negOne j)

/-- Witness for C3 at a concrete three-block stack with `k = 1`. -/
theorem claim_C3_witness :
    (1 : Nat) < blocksEx.length ∧
    (Transformer.forward blocksEx 5 Option.none (Int.ofNat 1) =
        runBlocks (blocksEx.take 2) 5 Option.none ∧
     Transformer.forward blocksEx 5 Option.none (-1) =
        runBlocks blocksEx 5 Option.none) :=
  ⟨by decide, claim_C3_early_exit blocksEx 5 Option.none 1 (by decide)⟩

/-- Counterexample to C4 as stated: for `OlderAnomalyTransformer` with clone
index `5 ≥ num_layers = 2`, the forward pass does not complete normally — the
loop never assigns `origin_block_outputs`, so the `return` raises
`UnboundLocalError` (modelled by `Option.none`). -/
theorem claim_C4_counterexample :
    olderEx.forward 7 Option.none (-1) = Option.none := by decide

/-- Claim C4 (amended): when `output_layer_ind` of the plain `Transformer`
exceeds `num_layers - 1`, the equality check never matches and the full stack
runs without error; but when `OlderAnomalyTransformer`'s configured clone
index exceeds `num_layers - 1`, the loop runs all blocks and the forward pass
then fails (the unbound `origin_block_outputs` at the `return`), rather than
returning normally. -/
theorem claim_C4_amended (blocks : List (BlockFn α μ)) (x : α) (mask : Option μ)
    (k : Nat) (hk : blocks.length ≤ k)
    (t : OlderAnomalyTransformer α μ) (y : α) (mask2 : Option μ) (oli : Int)
    (hind : Int.ofNat t.blocks.length ≤ t.clone_block_ind) :
    Transformer.forward blocks x mask (Int.ofNat k) = runBlocks blocks x mask ∧
    t.forward y mask2 oli = Option.none := by
  constructor
  · exact transformerGo_no_match mask (Int.ofNat k) blocks 0 x
      (fun j h1 h2 => by
        simp only [Nat.zero_add] at h2
        intro hc
        have := Int.ofNat.inj hc
        omega)
  · exact olderLoop_no_match mask2 t.clone_block_ind t.cloned_block t.blocks 0 y
      (fun j h1 h2 => by
        simp only [Nat.zero_add] at h2
        rw [intOfNat_eq_cast] at hind ⊢
        omega)

/-- Witness for the amended C4 at concrete instances. -/
theorem claim_C4_witness :
    blocksEx.length ≤ 5 ∧
    Int.ofNat olderEx.blocks.length ≤ olderEx.clone_block_ind ∧
    (Transformer.forward blocksEx 4 Option.none (Int.ofNat 5) =
        runBlocks blocksEx 4 Option.none ∧
     olderEx.forward 9 Option.none 0 = Option.none) :=
  ⟨by decide, by decide,
    claim_C4_amended blocksEx 4 Option.none 5 (by decide) olderEx 9 Option.none 0
      (by decide)⟩

/-- Counterexample to C5 as stated: a `-1` supplied as a member of a list is
not normalised to the last layer — it selects nothing, so the call fails
(empty `torch.stack`), while the same `-1` as a bare int does select the last
layer and succeeds. -/
theorem claim_C5_counterexample :
    anomEx.forward 3 Option.none (CloneArg.listArg [-1]) = Option.none ∧
    anomEx.forward 3 Option.none (CloneArg.intArg (-1)) =
      Option.some ([8], [104]) := by
  constructor
  · decide
  · decide

/-- Claim C5 (amended): a clone index of `-1` denotes the last layer only in
the two normalised forms — a bare int `-1` passed to
`AnomalyTransformer.forward` behaves like `num_layers - 1`, and
`OlderAnomalyTransformer` normalises a construction-time `-1` to
`num_layers - 1` — while a `-1` occurring inside a list argument is not
normalised and selects no layer (it is simply ignored by the membership
test). -/
theorem claim_C5_amended (t : AnomalyTransformer α μ)
    (h : t.cloned_blocks.length = t.blocks.length)
    (x : α) (mask : Option μ) (numLayers : Nat)
    (blocks2 : List (BlockFn α μ)) (cb : BlockFn α μ) (l : List Int) :
    t.forward x mask (CloneArg.intArg (-1)) =
      t.forward x mask (CloneArg.intArg (Int.ofNat t.blocks.length - 1)) ∧
    (OlderAnomalyTransformer.init numLayers blocks2 (-1) cb).clone_block_ind =
      Int.ofNat numLayers - 1 ∧
    t.forward x mask (CloneArg.listArg ((-1) :: l)) =
      t.forward x mask (CloneArg.listArg l) := by
  have hle : t.blocks.length ≤ t.cloned_blocks.length := Nat.le_of_eq h.symm
  refine ⟨?_, ?_, ?_⟩
  · have e1 : normalizeCloneInd t.blocks.length (CloneArg.intArg (-1))
        = [Int.ofNat t.blocks.length - 1] := by
      show (if (-1 : Int) = -1 then [Int.ofNat t.blocks.length - 1]
          else [(-1 : Int)]) = [Int.ofNat t.blocks.length - 1]
      rw [if_pos rfl]
    have e2 : normalizeCloneInd t.blocks.length
          (CloneArg.intArg (Int.ofNat t.blocks.length - 1))
        = [Int.ofNat t.blocks.length - 1] := by
      show (if Int.ofNat t.blocks.length - 1 = -1
            then [Int.ofNat t.blocks.length - 1]
            else [Int.ofNat t.blocks.length - 1])
          = [Int.ofNat t.blocks.length - 1]
      by_cases hc : Int.ofNat t.blocks.length - 1 = -1
      · rw [if_pos hc]
      · rw [if_neg hc]
    unfold AnomalyTransformer.forward
    rw [e1, e2]
  · simp [OlderAnomalyTransformer.init]
  · have hsel : selectedLayers t.blocks.length (CloneArg.listArg ((-1) :: l))
        = selectedLayers t.blocks.length (CloneArg.listArg l) := by
      unfold selectedLayers normalizeCloneInd
      apply List.filter_congr
      intro i hi
      have hne2 : Int.ofNat i ≠ -1 := intOfNat_ne_negOne i
      simp [List.mem_cons, hne2]
    rw [anomaly_forward_eq t hle x mask (CloneArg.listArg ((-1) :: l)),
      anomaly_forward_eq t hle x mask (CloneArg.listArg l), hsel]

/-- Witness for the amended C5 at a concrete two-layer instance. -/
theorem claim_C5_witness :
    anomEx.cloned_blocks.length = anomEx.blocks.length ∧
    (anomEx.forward 3 Option.none (CloneArg.intArg (-1)) =
        anomEx.forward 3 Option.none
          (CloneArg.intArg (Int.ofNat anomEx.blocks.length - 1)) ∧
     (OlderAnomalyTransformer.init 4 blocksEx (-1)
          (fun a _ => a + 100)).clone_block_ind = Int.ofNat 4 - 1 ∧
     anomEx.forward 3 Option.none (CloneArg.listArg ((-1) :: [0])) =
        anomEx.forward 3 Option.none (CloneArg.listArg [0])) :=
  ⟨rfl,
    claim_C5_amended anomEx rfl 3 Option.none 4 blocksEx
      (fun a _ => a + 100) [0]⟩

/-- Claim C9: `AnomalyTransformer.forward` errors (the `torch.stack` of an
empty list, modelled by `Option.none`) exactly when the normalised clone-index
list selects no layer index in `[0, num_layers)`; in particular a list
containing only `-1` or only out-of-range indices fails instead of returning
empty stacks or falling back to the last layer. -/
theorem claim_C9_empty_selection_error (t : AnomalyTransformer α μ)
    (h : t.cloned_blocks.length = t.blocks.length) (x : α) (mask : Option μ)
    (arg : CloneArg) :
    t.forward x mask arg = Option.none ↔
      selectedLayers t.blocks.length arg = [] := by
  have hle : t.blocks.length ≤ t.cloned_blocks.length := Nat.le_of_eq h.symm
  rw [anomaly_forward_eq t hle x mask arg]
  by_cases hsel : selectedLayers t.blocks.length arg = []
  · rw [if_pos hsel]
    simp [hsel]
  · rw [if_neg hsel]
    simp [hsel]

/-- Witness for C9: the list argument `[-1]` selects nothing, so the call
errors. -/
theorem claim_C9_witness :
    anomEx.cloned_blocks.length = anomEx.blocks.length ∧
    (anomEx.forward 5 Option.none (CloneArg.listArg [-1]) = Option.none ↔
      selectedLayers anomEx.blocks.length (CloneArg.listArg [-1]) = []) :=
  ⟨rfl, claim_C9_empty_selection_error anomEx rfl 5 Option.none
    (CloneArg.listArg [-1])⟩

/-- Claim C10: `OlderAnomalyTransformer.forward` never reads its
`output_layer_ind` parameter (the early-exit check that used it is commented
out in the source), so any two values give identical results. -/
theorem claim_C10_output_layer_ind_unused (t : OlderAnomalyTransformer α μ)
    (x : α) (mask : Option μ) (o1 o2 : Int) :
    t.forward x mask o1 = t.forward x mask o2 := rfl

/-- Casting a list of non-negative integers to naturals and back preserves
the product. -/
theorem prod_toNat_eq (A : List Int) (h : ∀ a ∈ A, 0 ≤ a) :
    (((A.map Int.toNat).prod : Nat) : Int) = A.prod := by
  induction A with
  | nil => simp
  | cons a rest ih =>
    simp only [List.map_cons, List.prod_cons, Nat.cast_mul]
    rw [ih (fun b hb => h b (List.mem_cons_of_mem a hb)),
      Int.toNat_of_nonneg (h a (List.mem_cons_self a rest))]

/-- `replaceFirst` rewrites exactly the head occurrence of the target. -/
theorem replaceFirst_append (A B : List Int) (v : Int) (hA : (-1) ∉ A) :
    replaceFirst (A ++ -1 :: B) (-1) v = A ++ v :: B := by
  induction A with
  | nil => simp [replaceFirst]
  | cons a rest ih =>
    have ha : a ≠ -1 := fun hc => hA (hc ▸ List.mem_cons_self a rest)
    simp only [List.cons_append, replaceFirst, if_neg ha, List.append_eq]
    rw [ih (fun hc => hA (List.mem_cons_of_mem a hc))]

/-- Full behaviour of `split_last` on a tensor with trailing dimension `D`
and a target shape with exactly one wildcard (written `A ++ -1 :: B` with
positive entries elsewhere): the wildcard is inferred as `D / (prod of the
others)` when that product divides `D`; otherwise (with nonzero leading
dimensions) the view fails; more than one wildcard always fails. -/
theorem split_last_spec (t : Tensor β) (L : List Nat) (D : Nat)
    (hs : t.shape = L ++ [D]) (A B : List Int)
    (hA : (-1) ∉ A) (hB : (-1) ∉ B)
    (hpos : ((A ++ B).all (fun a => 0 < a)))
    (target2 : List Int) (hcount : 1 < target2.count (-1)) :
    ((((A ++ B).map Int.toNat).prod ∣ D) →
      split_last t (A ++ -1 :: B) =
        Option.some
          ⟨L ++ A.map Int.toNat ++
              (D / ((A ++ B).map Int.toNat).prod) :: B.map Int.toNat,
           t.data⟩) ∧
    ((¬ (((A ++ B).map Int.toNat).prod ∣ D)) → 0 < L.prod →
      split_last t (A ++ -1 :: B) = Option.none) ∧
    split_last t target2 = Option.none := by
  have hposP : ∀ a ∈ A ++ B, 0 < a := by
    intro a ha
    have := List.all_eq_true.mp hpos a ha
    exact of_decide_eq_true this
  have hposA : ∀ a ∈ A, 0 < a := fun a ha => hposP a (List.mem_append_left B ha)
  have hposB : ∀ a ∈ B, 0 < a := fun a ha => hposP a (List.mem_append_right A ha)
  have hcount1 : (A ++ -1 :: B).count (-1) = 1 := by
    rw [List.count_append, List.count_cons]
    rw [List.count_eq_zero_of_not_mem hA, List.count_eq_zero_of_not_mem hB]
    simp
  have hnot1lt : ¬ 1 < (A ++ -1 :: B).count (-1) := by
    rw [hcount1]
    omega
  have hmem : (-1 : Int) ∈ A ++ -1 :: B :=
    List.mem_append_right A (List.mem_cons_self (-1) B)
  -- the product of the non-wildcard entries, as a natural number
  set p : Nat := ((A ++ B).map Int.toNat).prod with hp
  have hpA : (A.map Int.toNat).prod * (B.map Int.toNat).prod = p := by
    rw [hp, List.map_append, List.prod_append]
  have hppos : 0 < p := by
    rw [hp]
    apply List.prod_pos
    intro n hn
    obtain ⟨a, ha, hna⟩ := List.mem_map.mp hn
    have := hposP a ha
    omega
  -- -np.prod(target) is exactly p
  have hnegprod : - (A ++ -1 :: B).prod = (p : Int) := by
    rw [List.prod_append, List.prod_cons]
    have hAcast := prod_toNat_eq A (fun a ha => Int.le_of_lt (hposA a ha))
    have hBcast := prod_toNat_eq B (fun a ha => Int.le_of_lt (hposB a ha))
    rw [hp, List.map_append, List.prod_append, Nat.cast_mul, hAcast, hBcast]
    ring
  -- the trailing dimension that split_last reads
  have hlast : t.shape.getLastD 0 = D := by
    rw [hs, List.getLastD_concat]
  have hdrop : t.shape.dropLast = L := by
    rw [hs, List.dropLast_concat]
  -- the inferred wildcard value
  have hinfer : Int.tdiv (Int.ofNat (t.shape.getLastD 0)) (- (A ++ -1 :: B).prod)
      = Int.ofNat (D / p) := by
    rw [hlast, hnegprod, intOfNat_eq_cast, intOfNat_eq_cast, Int.ofNat_tdiv]
  have hreplace :
      replaceFirst (A ++ -1 :: B) (-1)
          (Int.tdiv (Int.ofNat (t.shape.getLastD 0)) (- (A ++ -1 :: B).prod))
        = A ++ Int.ofNat (D / p) :: B := by
    rw [hinfer, replaceFirst_append A B _ hA]
  -- membership facts for the list handed to view
  have hnomem : (-1 : Int) ∉ L.map Int.ofNat ++ (A ++ Int.ofNat (D / p) :: B) := by
    intro hc
    rcases List.mem_append.mp hc with hc1 | hc2
    · obtain ⟨n, _, hn⟩ := List.mem_map.mp hc1
      exact intOfNat_ne_negOne n hn
    · rcases List.mem_append.mp hc2 with hc3 | hc4
      · exact hA hc3
      · rcases List.mem_cons.mp hc4 with hc5 | hc6
        · exact intOfNat_ne_negOne (D / p) hc5.symm
        · exact hB hc6
  have hcount0 : ¬ 1 < (L.map Int.ofNat ++ (A ++ Int.ofNat (D / p) :: B)).count (-1) := by
    rw [List.count_eq_zero_of_not_mem hnomem]
    omega
  have hall : (L.map Int.ofNat ++ (A ++ Int.ofNat (D / p) :: B)).all
      (fun d => decide (0 ≤ d)) = true := by
    apply List.all_eq_true.mpr
    intro a ha
    apply decide_eq_true
    rcases List.mem_append.mp ha with hc1 | hc2
    · obtain ⟨n, _, hn⟩ := List.mem_map.mp hc1
      rw [← hn, intOfNat_eq_cast]
      omega
    · rcases List.mem_append.mp hc2 with hc3 | hc4
      · exact Int.le_of_lt (hposA a hc3)
      · rcases List.mem_cons.mp hc4 with hc5 | hc6
        · rw [hc5, intOfNat_eq_cast]
          exact Int.natCast_nonneg (D / p)
        · exact Int.le_of_lt (hposB a hc6)
  -- the total element count of the view target
  have hprodview : ((L.map Int.ofNat ++ (A ++ Int.ofNat (D / p) :: B)).map Int.toNat).prod
      = L.prod * ((D / p) * p) := by
    rw [List.map_append, List.prod_append, List.map_append, List.prod_append,
      List.map_cons, List.prod_cons]
    have hL : ((L.map Int.ofNat).map Int.toNat).prod = L.prod := by
      rw [List.map_map]
      have : (Int.toNat ∘ Int.ofNat) = id := by
        funext n
        simp [Int.toNat_natCast]
      rw [this, List.map_id]
    rw [hL, intOfNat_eq_cast, Int.toNat_natCast]
    have : (A.map Int.toNat).prod * ((D / p) * (B.map Int.toNat).prod)
        = (D / p) * ((A.map Int.toNat).prod * (B.map Int.toNat).prod) := by
      ring
    rw [this, hpA]
  have hnumel : t.shape.prod = L.prod * D := by
    rw [hs, List.prod_append, List.prod_cons, List.prod_nil, Nat.mul_one]
  have hsplit : split_last t (A ++ -1 :: B) =
      tensorView t (L.map Int.ofNat ++ (A ++ Int.ofNat (D / p) :: B)) := by
    unfold split_last
    rw [if_neg hnot1lt, if_pos hmem, hreplace, hdrop]
  refine ⟨?_, ?_, ?_⟩
  · intro hdvd
    rw [hsplit]
    unfold tensorView
    rw [if_neg hcount0, if_neg hnomem, if_pos ?cond]
    case cond =>
      refine ⟨?_, ?_⟩
      · simpa using hall
      · rw [hprodview, hnumel, Nat.div_mul_cancel hdvd]
    congr 1
    rw [List.map_append, List.map_append, List.map_cons]
    have hL : (L.map Int.ofNat).map Int.toNat = L := by
      rw [List.map_map]
      have : (Int.toNat ∘ Int.ofNat) = id := by
        funext n
        simp [Int.toNat_natCast]
      rw [this, List.map_id]
    rw [hL, intOfNat_eq_cast, Int.toNat_natCast, List.append_assoc]
  · intro hndvd hLpos
    rw [hsplit]
    unfold tensorView
    rw [if_neg hcount0, if_neg hnomem, if_neg ?ncond]
    case ncond =>
      intro hc
      apply hndvd
      have hprodeq := hc.2
      rw [hprodview, hnumel] at hprodeq
      have hinner : (D / p) * p = D := Nat.eq_of_mul_eq_mul_left hLpos hprodeq
      exact ⟨D / p, by rw [Nat.mul_comm]; exact hinner.symm⟩
  · unfold split_last
    rw [if_pos hcount]

/-- Claim C6: `split_last(x, shape)` for a tensor with trailing dimension `D`
and a target shape with at most one wildcard `-1` (and positive listed
dimensions) reshapes `x` so that `D` is replaced by the target dimensions with
the wildcard inferred as `D` divided by the product of the others; it fails if
more than one wildcard is given, and it fails if `D` is not evenly divisible
by that product (the tensor having nonzero leading dimensions). -/
theorem claim_C6_split_last (t : Tensor β) (L : List Nat) (D : Nat)
    (hs : t.shape = L ++ [D]) (A B : List Int)
    (hA : (-1) ∉ A) (hB : (-1) ∉ B)
    (hpos : ((A ++ B).all (fun a => 0 < a)))
    (target2 : List Int) (hcount : 1 < target2.count (-1)) :
    ((((A ++ B).map Int.toNat).prod ∣ D) →
      split_last t (A ++ -1 :: B) =
        Option.some
          ⟨L ++ A.map Int.toNat ++
              (D / ((A ++ B).map Int.toNat).prod) :: B.map Int.toNat,
           t.data⟩) ∧
    ((¬ (((A ++ B).map Int.toNat).prod ∣ D)) → 0 < L.prod →
      split_last t (A ++ -1 :: B) = Option.none) ∧
    split_last t target2 = Option.none :=
  split_last_spec t L D hs A B hA hB hpos target2 hcount

/-- Witness for C6: splitting the trailing dimension 6 of a (2, 6) tensor by
(3, -1) yields shape (2, 3, 2) with unchanged data, and a double wildcard is
rejected. -/
theorem claim_C6_witness :
    ((⟨[2, 6], List.range 12⟩ : Tensor Nat).shape = [2] ++ [6]) ∧
    ((-1 : Int) ∉ ([3] : List Int)) ∧
    ((([3] : List Int) ++ []).all (fun a => 0 < a)) ∧
    (1 < ([-1, -1] : List Int).count (-1)) ∧
    split_last (⟨[2, 6], List.range 12⟩ : Tensor Nat) ([3] ++ -1 :: []) =
      Option.some ⟨[2, 3, 2], List.range 12⟩ ∧
    split_last (⟨[2, 6], List.range 12⟩ : Tensor Nat) [-1, -1] = Option.none := by
  have hmain := claim_C6_split_last (⟨[2, 6], List.range 12⟩ : Tensor Nat)
    [2] 6 rfl [3] [] (by decide) (by decide) (by decide) [-1, -1] (by decide)
  exact ⟨rfl, by decide, by decide, by decide, hmain.1 (by decide), hmain.2.2⟩

/-! Row-major index arithmetic, for the `transpose(1, 2)` round trip. -/

/-- A multi-index valid for a shape flattens to a position below `numel`. -/
theorem flatIndex_lt (s idx : List Nat)
    (h : List.Forall₂ (fun a b => a < b) idx s) :
    flatIndex s idx < s.prod := by
  induction h with
  | nil => simp [flatIndex]
  | @cons a b l1 l2 hab htail ih =>
    simp only [flatIndex, List.prod_cons]
    calc a * l2.prod + flatIndex l2 l1
        < a * l2.prod + l2.prod := Nat.add_lt_add_left ih _
      _ = (a + 1) * l2.prod := by ring
      _ ≤ b * l2.prod := Nat.mul_le_mul_right _ (by omega)

/-- `unflatten` of a position below `numel` is a valid multi-index. -/
theorem forall₂_unflatten (s : List Nat) (k : Nat) (h : k < s.prod) :
    List.Forall₂ (fun a b => a < b) (unflatten s k) s := by
  induction s generalizing k with
  | nil => exact List.Forall₂.nil
  | cons n ns ih =>
    rw [List.prod_cons] at h
    have hP : 0 < ns.prod := by
      rcases Nat.eq_zero_or_pos ns.prod with h0 | h0
      · rw [h0, Nat.mul_zero] at h
        omega
      · exact h0
    exact List.Forall₂.cons ((Nat.div_lt_iff_lt_mul hP).mpr (by omega))
      (ih _ (Nat.mod_lt k hP))

/-- `flatIndex` is a left inverse of `unflatten` below `numel`. -/
theorem flatIndex_unflatten (s : List Nat) (k : Nat) (h : k < s.prod) :
    flatIndex s (unflatten s k) = k := by
  induction s generalizing k with
  | nil =>
    simp only [List.prod_nil] at h
    have hk : k = 0 := by omega
    subst hk
    rfl
  | cons n ns ih =>
    rw [List.prod_cons] at h
    have hP : 0 < ns.prod := by
      rcases Nat.eq_zero_or_pos ns.prod with h0 | h0
      · rw [h0, Nat.mul_zero] at h
        omega
      · exact h0
    simp only [unflatten, flatIndex]
    rw [ih _ (Nat.mod_lt k hP), Nat.mul_comm]
    exact Nat.div_add_mod k ns.prod

/-- `unflatten` is a left inverse of `flatIndex` on valid multi-indices. -/
theorem unflatten_flatIndex (s idx : List Nat)
    (h : List.Forall₂ (fun a b => a < b) idx s) :
    unflatten s (flatIndex s idx) = idx := by
  induction h with
  | nil => rfl
  | @cons a b l1 l2 hab htail ih =>
    have hr : flatIndex l2 l1 < l2.prod := flatIndex_lt l2 l1 htail
    have hP : 0 < l2.prod := by omega
    simp only [flatIndex, unflatten]
    congr 1
    · rw [Nat.mul_comm a l2.prod, Nat.mul_add_div hP, Nat.div_eq_of_lt hr,
        Nat.add_zero]
    · rw [Nat.mul_comm a l2.prod, Nat.mul_add_mod, Nat.mod_eq_of_lt hr, ih]

/-- `getD` on a tabulated list evaluates the tabulating function. -/
theorem getD_map_range (f : Nat → γ) (N m : Nat) (d : γ) (h : m < N) :
    ((List.range N).map f).getD m d = f m := by
  rw [List.getD_eq_getElem _ _ (by simpa using h), List.getElem_map,
    List.getElem_range]

/-- Tabulating `getD` over all positions reproduces the list. -/
theorem map_getD_range (l : List γ) (d : γ) :
    (List.range l.length).map (fun k => l.getD k d) = l := by
  apply List.ext_getElem
  · simp
  · intro n h1 h2
    rw [List.getElem_map, List.getElem_range, List.getD_eq_getElem _ _ h2]

/-- Swapping dimensions 1 and 2 preserves the element count. -/
theorem prod_swapIdx12 (a b c : Nat) (r : List Nat) :
    (swapIdx12 (a :: b :: c :: r)).prod = (a :: b :: c :: r).prod := by
  simp only [swapIdx12, List.prod_cons]
  ring

/-- `x.transpose(1, 2).transpose(1, 2)` is the identity on well-formed
tensors of rank at least 3. -/
theorem transpose12_transpose12 (t : Tensor β) (hwf : t.wf)
    (h3 : 3 ≤ t.shape.length) (dflt : β) :
    (t.transpose12 dflt).transpose12 dflt = t := by
  obtain ⟨s, data⟩ := t
  simp only [Tensor.wf] at hwf
  simp only at h3
  rcases s with _ | ⟨a, _ | ⟨b, _ | ⟨c, r⟩⟩⟩
  · simp at h3
  · simp at h3
  · simp at h3
  simp only [Tensor.transpose12]
  congr 1
  have hss : swapIdx12 (swapIdx12 (a :: b :: c :: r)) = a :: b :: c :: r := rfl
  rw [hss]
  apply List.ext_getElem
  · simp only [List.length_map, List.length_range]
    rw [hwf]
  · intro n h1 h2
    have hn : n < (a :: b :: c :: r).prod := by
      simp only [List.length_map, List.length_range] at h1
      exact h1
    have hval := forall₂_unflatten (a :: b :: c :: r) n hn
    obtain ⟨x, u1, hx, hu1, hidx1⟩ := List.forall₂_cons_right_iff.mp hval
    obtain ⟨y, u2, hy, hu2, hidx2⟩ := List.forall₂_cons_right_iff.mp hu1
    obtain ⟨z, u3, hz, hu3, hidx3⟩ := List.forall₂_cons_right_iff.mp hu2
    have hidx : unflatten (a :: b :: c :: r) n = x :: y :: z :: u3 := by
      rw [hidx1, hidx2, hidx3]
    have hvalswap : List.Forall₂ (fun a b => a < b) (x :: z :: y :: u3)
        (swapIdx12 (a :: b :: c :: r)) :=
      List.Forall₂.cons hx (List.Forall₂.cons hz (List.Forall₂.cons hy hu3))
    have hm : flatIndex (swapIdx12 (a :: b :: c :: r)) (x :: z :: y :: u3)
        < (swapIdx12 (a :: b :: c :: r)).prod :=
      flatIndex_lt _ _ hvalswap
    rw [List.getElem_map, List.getElem_range, hidx]
    show ((List.range (swapIdx12 (a :: b :: c :: r)).prod).map
        (fun k => data.getD
          (flatIndex (a :: b :: c :: r)
            (swapIdx12 (unflatten (swapIdx12 (a :: b :: c :: r)) k))) dflt)).getD
        (flatIndex (swapIdx12 (a :: b :: c :: r)) (swapIdx12 (x :: y :: z :: u3)))
        dflt = data[n]
    have hswapidx : swapIdx12 (x :: y :: z :: u3) = x :: z :: y :: u3 := rfl
    rw [hswapidx, getD_map_range _ _ _ _ hm,
      unflatten_flatIndex _ _ hvalswap]
    have hswapback : swapIdx12 (x :: z :: y :: u3) = x :: y :: z :: u3 := rfl
    rw [hswapback, ← hidx, flatIndex_unflatten _ _ hn,
      List.getD_eq_getElem data dflt (by omega)]

/-- Casting naturals to integers and truncating back is the identity. -/
theorem map_toNat_map_ofNat (L : List Nat) : (L.map Int.ofNat).map Int.toNat = L := by
  rw [List.map_map]
  have hid : (Int.toNat ∘ Int.ofNat) = id := by
    funext n
    simp [intOfNat_eq_cast, Int.toNat_natCast]
  rw [hid, List.map_id]

/-- Claim C7: for a tensor of shape `(..., D)` (rank at least 2, no zero
dimensions) and a head count `H` dividing `D`, splitting the trailing
dimension by `(H, -1)`, transposing dimensions 1 and 2 twice (applying and
undoing the same transpose) and merging the last two dimensions reconstructs
the original tensor exactly. -/
theorem claim_C7_split_merge_roundtrip (t : Tensor β) (hwf : t.wf) (dflt : β)
    (L : List Nat) (D H : Nat) (hs : t.shape = L ++ [D]) (hL : L ≠ [])
    (hpos : 0 < t.shape.prod) (hH : 0 < H) (hdvd : H ∣ D) :
    (split_last t [Int.ofNat H, -1]).bind
        (fun y => merge_last ((y.transpose12 dflt).transpose12 dflt) 2)
      = Option.some t := by
  have hA : (-1 : Int) ∉ [Int.ofNat H] := by
    intro hc
    exact intOfNat_ne_negOne H (List.mem_singleton.mp hc).symm
  have hB : (-1 : Int) ∉ ([] : List Int) := List.not_mem_nil _
  have hposall : (([Int.ofNat H] ++ ([] : List Int)).all (fun a => 0 < a)) := by
    simp only [List.append_nil, List.all_cons, List.all_nil, Bool.and_true]
    apply decide_eq_true
    rw [intOfNat_eq_cast]
    omega
  have hp : (([Int.ofNat H] ++ ([] : List Int)).map Int.toNat).prod = H := by
    simp [intOfNat_eq_cast, Int.toNat_natCast]
  have hspec := (split_last_spec t L D hs [Int.ofNat H] [] hA hB hposall
    [-1, -1] (by decide)).1
  rw [hp] at hspec
  have hsplit := hspec hdvd
  have hshape : L ++ [Int.ofNat H].map Int.toNat ++
      (D / H) :: ([] : List Int).map Int.toNat = L ++ [H, D / H] := by
    simp [intOfNat_eq_cast, Int.toNat_natCast]
  rw [hshape] at hsplit
  have hlist : [Int.ofNat H, -1] = [Int.ofNat H] ++ -1 :: ([] : List Int) := rfl
  rw [hlist, hsplit]
  simp only [Option.some_bind]
  -- the split result is well-formed of rank ≥ 3, so the double transpose is
  -- the identity on it
  have hy0wf : (⟨L ++ [H, D / H], t.data⟩ : Tensor β).wf := by
    unfold Tensor.wf
    simp only
    rw [hwf, hs]
    simp only [List.prod_append, List.prod_cons, List.prod_nil, Nat.mul_one]
    rw [Nat.mul_div_cancel' hdvd]
  have hLlen : 1 ≤ L.length := List.length_pos.mpr hL
  have hy0len : 3 ≤ (⟨L ++ [H, D / H], t.data⟩ : Tensor β).shape.length := by
    simp only [List.length_append, List.length_cons, List.length_nil]
    omega
  rw [transpose12_transpose12 _ hy0wf hy0len dflt]
  -- evaluate merge_last
  unfold merge_last
  rw [if_pos ?pre]
  case pre =>
    refine ⟨by omega, ?_⟩
    simp only [List.length_append, List.length_cons, List.length_nil]
    omega
  have htake : ((⟨L ++ [H, D / H], t.data⟩ : Tensor β).shape.take
      ((⟨L ++ [H, D / H], t.data⟩ : Tensor β).shape.length - 2)) = L := by
    simp only
    have hlen : (L ++ [H, D / H]).length = L.length + 2 := by
      simp [List.length_append]
    rw [hlen, Nat.add_sub_cancel]
    exact List.take_left L [H, D / H]
  rw [htake]
  -- evaluate the inferring view
  unfold tensorView
  have hnm : (-1 : Int) ∉ L.map Int.ofNat := by
    intro hc
    obtain ⟨n, _, hn⟩ := List.mem_map.mp hc
    exact intOfNat_ne_negOne n hn
  have hcnt : ¬ 1 < (L.map Int.ofNat ++ [-1]).count (-1) := by
    rw [List.count_append, List.count_eq_zero_of_not_mem hnm]
    simp
  have hmm2 : (-1 : Int) ∈ L.map Int.ofNat ++ [-1] :=
    List.mem_append_right _ (List.mem_singleton.mpr rfl)
  have hfilter : (L.map Int.ofNat ++ [-1]).filter (fun d => d ≠ -1)
      = L.map Int.ofNat := by
    rw [List.filter_append]
    have h1 : (L.map Int.ofNat).filter (fun d => d ≠ -1) = L.map Int.ofNat :=
      List.filter_eq_self.mpr
        (fun a ha => decide_eq_true (fun hc => hnm (hc ▸ ha)))
    have h2 : ([(-1 : Int)]).filter (fun d => d ≠ -1) = [] := by decide
    rw [h1, h2, List.append_nil]
  have hLpos : 0 < L.prod := by
    have hp2 := hpos
    rw [hs, List.prod_append, List.prod_cons, List.prod_nil, Nat.mul_one] at hp2
    rcases Nat.eq_zero_or_pos L.prod with h0 | h0
    · rw [h0, Nat.zero_mul] at hp2
      omega
    · exact h0
  have hall2 : ((L.map Int.ofNat).all (fun d => decide (0 ≤ d))) = true := by
    apply List.all_eq_true.mpr
    intro a ha
    apply decide_eq_true
    obtain ⟨n, _, hn⟩ := List.mem_map.mp ha
    rw [← hn, intOfNat_eq_cast]
    omega
  have hprodY : (⟨L ++ [H, D / H], t.data⟩ : Tensor β).shape.prod = L.prod * D := by
    simp only [List.prod_append, List.prod_cons, List.prod_nil, Nat.mul_one]
    rw [Nat.mul_div_cancel' hdvd]
  rw [hfilter, if_neg hcnt, if_pos hmm2, if_pos ?cond]
  case cond =>
    refine ⟨by simpa using hall2, ?_, ?_⟩
    · rw [map_toNat_map_ofNat]
      exact hLpos
    · rw [map_toNat_map_ofNat, hprodY]
      exact ⟨D, rfl⟩
  rw [map_toNat_map_ofNat, hprodY, Nat.mul_div_cancel_left D hLpos]
  rw [replaceFirst_append (L.map Int.ofNat) [] (Int.ofNat D) hnm]
  have hfinal : ((L.map Int.ofNat ++ Int.ofNat D :: ([] : List Int)).map Int.toNat)
      = L ++ [D] := by
    rw [List.map_append, map_toNat_map_ofNat]
    simp [intOfNat_eq_cast, Int.toNat_natCast]
  rw [hfinal, ← hs]

/-- Witness for C7 on a concrete (2, 6) tensor with H = 3. -/
theorem claim_C7_witness :
    (⟨[2, 6], List.range 12⟩ : Tensor Nat).wf ∧
    (⟨[2, 6], List.range 12⟩ : Tensor Nat).shape = [2] ++ [6] ∧
    ([2] : List Nat) ≠ [] ∧
    0 < (⟨[2, 6], List.range 12⟩ : Tensor Nat).shape.prod ∧
    (0 : Nat) < 3 ∧ (3 : Nat) ∣ 6 ∧
    (split_last (⟨[2, 6], List.range 12⟩ : Tensor Nat) [Int.ofNat 3, -1]).bind
        (fun y => merge_last ((y.transpose12 0).transpose12 0) 2)
      = Option.some (⟨[2, 6], List.range 12⟩ : Tensor Nat) :=
  ⟨rfl, rfl, by decide, by decide, by decide, by decide,
    claim_C7_split_merge_roundtrip (⟨[2, 6], List.range 12⟩ : Tensor Nat) rfl 0
      [2] 6 3 rfl (by decide) (by decide) (by decide) (by decide)⟩

/-- Per-row bound: with bounded raw scores, a zero mask entry at `j`, and at
least one mask entry equal to one, the post-softmax weight of position `j` is
non-negative and at most `exp (2C - 10000)`. -/
theorem maskedAttnRow_bound (row mrow : List ℝ) (C : ℝ) (j : Nat)
    (hlen : mrow.length = row.length) (hj : j < row.length)
    (hmj : mrow.getD j 0 = 0)
    (hbound : ∀ s ∈ row, |s| ≤ C)
    (k0 : Nat) (hk0 : k0 < row.length) (hmk0 : mrow.getD k0 0 = 1) :
    0 ≤ (maskedAttnRow row mrow).getD j 0 ∧
    (maskedAttnRow row mrow).getD j 0 ≤ Real.exp (2 * C - 10000) := by
  have hlen2 : (maskAdjustRow row mrow).length = row.length := by
    unfold maskAdjustRow
    rw [List.length_zipWith, hlen, Nat.min_self]
  have hjl : j < (maskAdjustRow row mrow).length := by omega
  have hk0l : k0 < (maskAdjustRow row mrow).length := by omega
  -- the masked score at any valid position
  have hentry : ∀ i : Nat, i < (maskAdjustRow row mrow).length →
      (maskAdjustRow row mrow).getD i 0
        = row.getD i 0 - 10000 * (1 - mrow.getD i 0) := by
    intro i hi
    rw [List.getD_eq_getElem _ _ hi]
    unfold maskAdjustRow at hi ⊢
    rw [List.getElem_zipWith]
    rw [List.length_zipWith] at hi
    rw [List.getD_eq_getElem row 0 (by omega), List.getD_eq_getElem mrow 0 (by omega)]
  have hjval : (maskAdjustRow row mrow).getD j 0 = row.getD j 0 - 10000 := by
    rw [hentry j hjl, hmj]
    ring
  have hk0val : (maskAdjustRow row mrow).getD k0 0 = row.getD k0 0 := by
    rw [hentry k0 hk0l, hmk0]
    ring
  -- the softmax denominator
  have hsum_lb : Real.exp (row.getD k0 0)
      ≤ ((maskAdjustRow row mrow).map Real.exp).sum := by
    apply List.single_le_sum (fun x hx => ?nn)
    case nn =>
      obtain ⟨a, _, ha⟩ := List.mem_map.mp hx
      rw [← ha]
      exact (Real.exp_pos a).le
    rw [← hk0val]
    apply List.mem_map.mpr
    refine ⟨(maskAdjustRow row mrow).getD k0 0, ?_, rfl⟩
    rw [List.getD_eq_getElem _ _ hk0l]
    exact List.getElem_mem hk0l
  have hrowk0 : -C ≤ row.getD k0 0 := by
    have hmem : row.getD k0 0 ∈ row := by
      rw [List.getD_eq_getElem _ _ hk0]
      exact List.getElem_mem hk0
    have := hbound _ hmem
    rw [abs_le] at this
    exact this.1
  have hsum_pos : 0 < ((maskAdjustRow row mrow).map Real.exp).sum :=
    lt_of_lt_of_le (Real.exp_pos _) (le_trans (Real.exp_le_exp.mpr hrowk0) hsum_lb)
  have hsum_lb2 : Real.exp (-C) ≤ ((maskAdjustRow row mrow).map Real.exp).sum :=
    le_trans (Real.exp_le_exp.mpr hrowk0) hsum_lb
  -- the weight at position j
  have hW : (maskedAttnRow row mrow).getD j 0
      = Real.exp ((maskAdjustRow row mrow).getD j 0)
        / ((maskAdjustRow row mrow).map Real.exp).sum := by
    unfold maskedAttnRow softmaxRow
    rw [List.getD_eq_getElem _ _ (by simpa using hjl), List.getElem_map,
      List.getD_eq_getElem _ _ hjl]
  constructor
  · rw [hW]
    exact div_nonneg (Real.exp_pos _).le hsum_pos.le
  · rw [hW]
    have hstep : Real.exp ((maskAdjustRow row mrow).getD j 0)
          / ((maskAdjustRow row mrow).map Real.exp).sum
        ≤ Real.exp ((maskAdjustRow row mrow).getD j 0) / Real.exp (-C) :=
      div_le_div_of_nonneg_left (Real.exp_pos _).le (Real.exp_pos _) hsum_lb2
    apply le_trans hstep
    rw [← Real.exp_sub]
    apply Real.exp_le_exp.mpr
    have hrowj : row.getD j 0 ≤ C := by
      have hmem : row.getD j 0 ∈ row := by
        rw [List.getD_eq_getElem _ _ hj]
        exact List.getElem_mem hj
      have := hbound _ hmem
      rw [abs_le] at this
      exact this.2
    rw [hjval]
    linarith

/-- Claim C8: in `MultiHeadedSelfAttention.forward`, when the mask has a zero
at sequence position `j`, the post-softmax weight assigned to position `j`
is within a small epsilon of zero for every batch `b`, head `hd` and query
`q` — non-negative and at most `exp (2C - 10000)` when the raw scores are
bounded by `C` and some position is unmasked — via the broadcast of the mask
to (B, 1, 1, S) and the subtraction of `10000 * (1 - mask)` before the
softmax. -/
theorem claim_C8_mask_suppresses_weight
    (scores : List (List (List (List ℝ)))) (mask : List (List ℝ)) (C : ℝ)
    (b hd q j k0 : Nat)
    (hb1 : b < scores.length) (hb2 : b < mask.length)
    (hh : hd < (scores.getD b []).length)
    (hq : q < ((scores.getD b []).getD hd []).length)
    (hlen : (mask.getD b []).length
      = (((scores.getD b []).getD hd []).getD q []).length)
    (hj : j < (((scores.getD b []).getD hd []).getD q []).length)
    (hmj : (mask.getD b []).getD j 0 = 0)
    (hbound : ∀ s ∈ ((scores.getD b []).getD hd []).getD q [], |s| ≤ C)
    (hk0 : k0 < (((scores.getD b []).getD hd []).getD q []).length)
    (hmk0 : (mask.getD b []).getD k0 0 = 1) :
    0 ≤ ((((maskedAttnWeights scores mask).getD b []).getD hd []).getD q []).getD j 0 ∧
    ((((maskedAttnWeights scores mask).getD b []).getD hd []).getD q []).getD j 0
      ≤ Real.exp (2 * C - 10000) := by
  have hbz : b < (maskedAttnWeights scores mask).length := by
    unfold maskedAttnWeights
    rw [List.length_zipWith]
    omega
  have hWb : (maskedAttnWeights scores mask).getD b []
      = (scores.getD b []).map
          (fun perHead => perHead.map (fun row => maskedAttnRow row (mask.getD b []))) := by
    rw [List.getD_eq_getElem _ _ hbz]
    unfold maskedAttnWeights
    rw [List.getElem_zipWith,
      List.getD_eq_getElem scores [] hb1, List.getD_eq_getElem mask [] hb2]
  have hWh : ((maskedAttnWeights scores mask).getD b []).getD hd []
      = ((scores.getD b []).getD hd []).map
          (fun row => maskedAttnRow row (mask.getD b [])) := by
    rw [hWb, List.getD_eq_getElem _ _ (by simpa using hh), List.getElem_map,
      List.getD_eq_getElem _ _ hh]
  have hWq : (((maskedAttnWeights scores mask).getD b []).getD hd []).getD q []
      = maskedAttnRow (((scores.getD b []).getD hd []).getD q []) (mask.getD b []) := by
    rw [hWh, List.getD_eq_getElem _ _ (by simpa using hq), List.getElem_map,
      List.getD_eq_getElem _ _ hq]
  rw [hWq]
  exact maskedAttnRow_bound _ _ C j hlen hj hmj hbound k0 hk0 hmk0

/-- Witness for C8: raw scores (0, 0), mask (1, 0), so position 1 is masked;
its weight is non-negative and at most `exp (-10000)`. -/
theorem claim_C8_witness :
    (([[(1 : ℝ), 0]] : List (List ℝ)).getD 0 []).getD 1 0 = 0 ∧
    (([[(1 : ℝ), 0]] : List (List ℝ)).getD 0 []).getD 0 0 = 1 ∧
    (∀ s ∈ ((([[[[(0 : ℝ), 0]]]] : List (List (List (List ℝ)))).getD 0 []).getD 0 []).getD 0 [],
      |s| ≤ (0 : ℝ)) ∧
    (0 ≤ ((((maskedAttnWeights [[[[(0 : ℝ), 0]]]] [[(1 : ℝ), 0]]).getD 0 []).getD 0 []).getD 0 []).getD 1 0 ∧
     ((((maskedAttnWeights [[[[(0 : ℝ), 0]]]] [[(1 : ℝ), 0]]).getD 0 []).getD 0 []).getD 0 []).getD 1 0
       ≤ Real.exp (2 * 0 - 10000)) := by
  refine ⟨rfl, rfl, ?_, ?_⟩
  · intro s hs
    have : s = 0 := by
      rcases List.mem_cons.mp hs with h1 | h1
      · exact h1
      · rcases List.mem_cons.mp h1 with h2 | h2
        · exact h2
        · exact absurd h2 (List.not_mem_nil s)
    rw [this]
    simp
  · exact claim_C8_mask_suppresses_weight [[[[(0 : ℝ), 0]]]] [[(1 : ℝ), 0]] 0
      0 0 0 1 0 (by decide) (by decide) (by decide) (by decide) rfl (by decide)
      rfl
      (by
        intro s hs
        have : s = 0 := by
          rcases List.mem_cons.mp hs with h1 | h1
          · exact h1
          · rcases List.mem_cons.mp h1 with h2 | h2
            · exact h2
            · exact absurd h2 (List.not_mem_nil s)
        rw [this]
        simp)
      (by decide) rfl

end ViT
